import Mathlib

/-!
Shallow embedding of the `odmd` repository (online dynamic mode decomposition).

The repository source in `src/` consists of the driver `demo/online_demo.py`,
which builds snapshot pairs from an integrated trajectory, runs a brute-force
batch DMD oracle (`AbatchDMD[:, :, k] = y[:, :k+1].dot(pinv(x[:, :k+1]))`),
runs the online estimator `OnlineDMD` (warm-up `initialize` on the first `q`
columns, then one `update` per column), and extracts continuous-time
eigenvalues via `np.log(np.linalg.eigvals(A))/dt`.

The estimator class `OnlineDMD` itself (file `online.py`) is imported by the
demo but is not part of the inspected sources, so its state and operations are
modelled from the specification (definitions marked `Modelled from the spec:`).

Real matrices are embedded as `Matrix (Fin n) (Fin n) ℝ`; numpy floating-point
arithmetic is idealised as exact real arithmetic, so tolerance statements of
the specification become exact equalities.
-/

open Matrix

/-- State vectors of the `n`-dimensional system: one snapshot column. -/
abbrev Vec (n : ℕ) := Fin n → ℝ

/-- Square `n × n` real matrices, the type of the operator `A` and of `P`. -/
abbrev Mat (n : ℕ) := Matrix (Fin n) (Fin n) ℝ

/-- One observation pair `(x, y)` as consumed by the estimator. -/
abbrev Pair (n : ℕ) := Vec n × Vec n

/-- Weighted covariance accumulator: folding the pairs in arrival order with
`S ← ρ·S + x·xᵀ` yields `Σ_i ρ^(m-1-i)·x_i·x_iᵀ`, the matrix whose inverse the
auxiliary state `P` tracks (spec §3). -/
def covS {n : ℕ} (rho : ℝ) (ps : List (Pair n)) : Mat n :=
  ps.foldl (fun S p => rho • S + vecMulVec p.1 p.1) 0

/-- Weighted cross-covariance accumulator `Σ_i ρ^(m-1-i)·y_i·x_iᵀ`, the
numerator of the weighted least-squares solution. -/
def crossC {n : ℕ} (rho : ℝ) (ps : List (Pair n)) : Mat n :=
  ps.foldl (fun C p => rho • C + vecMulVec p.2 p.1) 0

/-- Modelled from the spec: the estimator `OnlineDMD` (its implementation file
`online.py` is not under `src/`).  A Ready estimator holds the immutable
weighting factor `ρ`, the operator estimate `A`, the auxiliary matrix `P`, and
the step counter `k` (spec §3, §9: fields `{n, ρ, A, P, k}`). -/
structure OnlineDMD (n : ℕ) where
  rho : ℝ
  A : Mat n
  P : Mat n
  k : ℕ

/-- Modelled from the spec: `initialize(X0, Y0)` (spec §4.1) seeds the state
from a warm-up batch of `q0` pairs: `A0` is the weighted least-squares
operator over the batch (for the batch `C0·S0⁻¹`, equivalently `Y0·pinv(X0)`
for a well-posed batch), `P0` is the inverse of the weighted covariance
`S0 = Σ ρ^(q0-1-i)·x_i·x_iᵀ` (spec §3), and `k = q0`. -/
noncomputable def OnlineDMD.initialise {n : ℕ} (rho : ℝ) (ps : List (Pair n)) : OnlineDMD n :=
  { rho := rho
    A := crossC rho ps * (covS rho ps)⁻¹
    P := (covS rho ps)⁻¹
    k := ps.length }

/-- Modelled from the spec: `update(x, y)` (spec §4.1) performs, in order,
`g = P·x`, `γ = 1/(ρ + xᵗ·g)`, `A ← A + γ·(y − A·x)·gᵀ`,
`P ← (1/ρ)·(P − γ·g·gᵀ)`, `k ← k + 1`. -/
noncomputable def OnlineDMD.update {n : ℕ} (s : OnlineDMD n) (x y : Vec n) : OnlineDMD n :=
  { rho := s.rho
    A := s.A + (s.rho + dotProduct x (s.P.mulVec x))⁻¹ •
          vecMulVec (y - s.A.mulVec x) (s.P.mulVec x)
    P := s.rho⁻¹ • (s.P - (s.rho + dotProduct x (s.P.mulVec x))⁻¹ •
          vecMulVec (s.P.mulVec x) (s.P.mulVec x))
    k := s.k + 1 }

/-- Modelled from the spec: `current_operator()` returns the present value of
the operator estimate `A` (spec §4.1, §6). -/
def OnlineDMD.current_operator {n : ℕ} (s : OnlineDMD n) : Mat n := s.A

/-- Feed one pair to the estimator (uncurried `update`, used to fold a list of
pairs in arrival order). -/
noncomputable def stepPair {n : ℕ} (s : OnlineDMD n) (p : Pair n) : OnlineDMD n :=
  s.update p.1 p.2

/-- The first `m` snapshot pairs `(x i, y i)`, `i = 0, …, m−1`, of the demo's
snapshot streams, in arrival order: the columns `x[:, :m]`, `y[:, :m]`. -/
def histPairs {n : ℕ} (x y : ℕ → Vec n) (m : ℕ) : List (Pair n) :=
  (List.range m).map fun i => (x i, y i)

/-- The matrix whose columns are the first `m` snapshots of a stream:
`x[:, :m]` in the demo's notation. -/
def colsMat {n : ℕ} (x : ℕ → Vec n) (m : ℕ) : Matrix (Fin n) (Fin m) ℝ :=
  Matrix.of fun i j => x j i

/-- The four Moore–Penrose equations: `G` is the pseudoinverse of `X`
(what `np.linalg.pinv` computes) iff all four hold; they determine `G`
uniquely (`isMoorePenrose_unique`). -/
def IsMoorePenrose {n m : ℕ} (X : Matrix (Fin n) (Fin m) ℝ)
    (G : Matrix (Fin m) (Fin n) ℝ) : Prop :=
  X * G * X = X ∧ G * X * G = G ∧ (X * G)ᵀ = X * G ∧ (G * X)ᵀ = G * X

/-- `np.linalg.pinv` as used by the demo on the snapshot matrix, modelled in
the full-row-rank case by its closed form `Xᵀ·(X·Xᵀ)⁻¹` (this is the
Moore–Penrose pseudoinverse whenever `X·Xᵀ` is invertible:
`isMoorePenrose_npPinv`). -/
noncomputable def npPinv {n m : ℕ} (X : Matrix (Fin n) (Fin m) ℝ) : Matrix (Fin m) (Fin n) ℝ :=
  Xᵀ * (X * Xᵀ)⁻¹

/-- Source `online_demo.py:88`: the batch oracle at step `k` recomputes
`AbatchDMD[:, :, k] = y[:, :k+1].dot(np.linalg.pinv(x[:, :k+1]))`. -/
noncomputable def AbatchDMD {n : ℕ} (x y : ℕ → Vec n) (k : ℕ) : Mat n :=
  colsMat y (k + 1) * npPinv (colsMat x (k + 1))

/-- Source `online_demo.py:97-101`: the online demo loop.  `demoLoop x y rho q j`
is the estimator state after the first `j` iterations of
`for k in range(q, m): odmd.update(x[:, k], y[:, k])` starting from
`odmd.initialize(x[:, :q], y[:, :q])`; iteration index `k` corresponds to
`j = k + 1 - q`. -/
noncomputable def demoLoop {n : ℕ} (x y : ℕ → Vec n) (rho : ℝ) (q : ℕ) : ℕ → OnlineDMD n
  | 0 => OnlineDMD.initialise rho (histPairs x y q)
  | j + 1 => (demoLoop x y rho q j).update (x (q + j)) (y (q + j))

/-- The estimator run on exactly the first `m` pairs of the streams: warm-up
`initialize` on the first `q`, then one `update` per remaining pair, in
arrival order. -/
noncomputable def runStream {n : ℕ} (x y : ℕ → Vec n) (rho : ℝ) (q m : ℕ) : OnlineDMD n :=
  ((List.range (m - q)).map fun j => (x (q + j), y (q + j))).foldl stepPair
    (OnlineDMD.initialise rho (histPairs x y q))

/-- Source `online_demo.py:90,102,114`: the discrete eigenvalues
`np.linalg.eigvals(A)` of the real operator, as the complex spectrum of the
complexified matrix. -/
def eigvalsC {n : ℕ} (A : Mat n) : Set ℂ :=
  spectrum ℂ (A.map (Complex.ofReal))

/-- Source `online_demo.py:90,102,114`: the continuous-time eigenvalues
`np.log(np.linalg.eigvals(A))/dt` extracted by the demo (`np.log` on complex
input is the principal branch of the logarithm, as is `Complex.log`). -/
def evalsCT {n : ℕ} (A : Mat n) (dt : ℝ) : Set ℂ :=
  Set.image (fun l => Complex.log l / (dt : ℂ)) (eigvalsC A)

/-- The run-time invariant of a Ready estimator whose full input history is
`hist` (spec §3): `P` is the inverse of the weighted covariance `S` of all
`x`-snapshots seen so far, `P` is symmetric, the covariance is positive
definite, and `A` is the weighted least-squares solution `C·S⁻¹`. -/
def OnlineDMD.Consistent {n : ℕ} (s : OnlineDMD n) (hist : List (Pair n)) : Prop :=
  (covS s.rho hist).PosDef ∧
  s.P * covS s.rho hist = 1 ∧
  covS s.rho hist * s.P = 1 ∧
  s.Pᵀ = s.P ∧
  s.A = crossC s.rho hist * s.P

/-- Truncation of a stream at index `k` (entries with index `> k` zeroed):
used to state that the step-`k` results of the demo depend only on the pairs
with indices `0, …, k`. -/
def truncStream {n : ℕ} (x : ℕ → Vec n) (k : ℕ) : ℕ → Vec n :=
  fun i => if i ≤ k then x i else 0

/-- Constant snapshot stream `x(i) = [1]` in dimension 1, used to build
concrete well-posed runs. -/
def xu : ℕ → Vec 1 := fun _ _ => 1

/-- Constant snapshot stream `y(i) = [2]` in dimension 1. -/
def yu : ℕ → Vec 1 := fun _ _ => 2

section Toolkit

variable {n m : ℕ}

lemma mul_vecMulVec (M : Mat n) (v w : Vec n) :
    M * vecMulVec v w = vecMulVec (M.mulVec v) w := by
  ext i j
  simp [Matrix.mul_apply, Matrix.vecMulVec_apply, Matrix.mulVec, Matrix.dotProduct,
    Finset.sum_mul, mul_assoc]

lemma vecMulVec_mul (v w : Vec n) (M : Mat n) :
    vecMulVec v w * M = vecMulVec v (Matrix.mulVec Mᵀ w) := by
  ext i j
  simp only [Matrix.mul_apply, Matrix.vecMulVec_apply, Matrix.mulVec,
    Matrix.dotProduct, Matrix.transpose_apply, Finset.mul_sum]
  exact Finset.sum_congr rfl fun k _ => by ring

lemma vecMulVec_mul_vecMulVec (a b c d : Vec n) :
    vecMulVec a b * vecMulVec c d = dotProduct b c • vecMulVec a d := by
  ext i j
  simp only [Matrix.mul_apply, Matrix.vecMulVec_apply, Matrix.smul_apply,
    Matrix.dotProduct, Finset.sum_mul, smul_eq_mul, Finset.mul_sum]
  exact Finset.sum_congr rfl fun k _ => by ring

lemma vecMulVec_mulVec (a b v : Vec n) :
    (vecMulVec a b).mulVec v = dotProduct b v • a := by
  ext i
  simp only [Matrix.mulVec, Matrix.vecMulVec_apply, Matrix.dotProduct,
    Pi.smul_apply, smul_eq_mul, Finset.sum_mul]
  exact Finset.sum_congr rfl fun k _ => by ring

lemma transpose_vecMulVec (v w : Vec n) :
    (vecMulVec v w)ᵀ = vecMulVec w v := by
  ext i j
  simp [Matrix.vecMulVec_apply, mul_comm]

lemma sub_vecMulVec (a b c : Vec n) :
    vecMulVec (a - b) c = vecMulVec a c - vecMulVec b c := by
  ext i j
  simp [Matrix.vecMulVec_apply, sub_mul]

lemma posSemidef_vecMulVec (v : Vec n) : (vecMulVec v v).PosSemidef := by
  constructor
  · ext i j
    simp [Matrix.conjTranspose_apply, Matrix.vecMulVec_apply, mul_comm]
  · intro u
    rw [vecMulVec_mulVec, dotProduct_smul]
    have hs : star u = u := by
      funext i; simp
    rw [hs, smul_eq_mul, dotProduct_comm]
    exact mul_self_nonneg _

end Toolkit

section Invariant

variable {n : ℕ}

lemma covS_append (rho : ℝ) (l : List (Pair n)) (p : Pair n) :
    covS rho (l ++ [p]) = rho • covS rho l + vecMulVec p.1 p.1 := by
  simp [covS, List.foldl_append]

lemma crossC_append (rho : ℝ) (l : List (Pair n)) (p : Pair n) :
    crossC rho (l ++ [p]) = rho • crossC rho l + vecMulVec p.2 p.1 := by
  simp [crossC, List.foldl_append]

lemma covS_transpose (rho : ℝ) (l : List (Pair n)) :
    (covS rho l)ᵀ = covS rho l := by
  suffices h : ∀ S : Mat n, Sᵀ = S →
      (l.foldl (fun S p => rho • S + vecMulVec p.1 p.1) S)ᵀ =
        l.foldl (fun S p => rho • S + vecMulVec p.1 p.1) S by
    simpa [covS] using h 0 (by simp)
  induction l with
  | nil => intro S h; simpa using h
  | cons p l ih =>
      intro S h
      simp only [List.foldl_cons]
      exact ih _ (by rw [transpose_add, transpose_smul, h, transpose_vecMulVec])

lemma isHermitian_of_transpose {M : Mat n} (h : Mᵀ = M) : M.IsHermitian := by
  refine Matrix.IsHermitian.ext fun i j => ?_
  rw [star_trivial]
  exact congrFun (congrFun h i) j

lemma transpose_eq_of_isHermitian {M : Mat n} (h : M.IsHermitian) : Mᵀ = M := by
  ext i j
  rw [Matrix.transpose_apply, ← h.apply i j, star_trivial]

lemma consistent_initialise (rho : ℝ) (ps : List (Pair n))
    (hPD : (covS rho ps).PosDef) :
    (OnlineDMD.initialise rho ps).Consistent ps := by
  have hdet : IsUnit (covS rho ps).det := isUnit_iff_ne_zero.mpr hPD.det_pos.ne'
  exact ⟨hPD, Matrix.nonsing_inv_mul _ hdet, Matrix.mul_nonsing_inv _ hdet,
    by rw [OnlineDMD.initialise, Matrix.transpose_nonsing_inv, covS_transpose], rfl⟩

lemma denom_pos {S P : Mat n} {rho : ℝ} (hρ : 0 < rho) (hPD : S.PosDef)
    (hSP : S * P = 1) (x : Vec n) : 0 < rho + dotProduct x (P.mulVec x) := by
  have hx : S.mulVec (P.mulVec x) = x := by
    rw [Matrix.mulVec_mulVec, hSP, Matrix.one_mulVec]
  have hstar : star (P.mulVec x) = P.mulVec x := funext fun i => star_trivial _
  have h0 : (0 : ℝ) ≤ dotProduct x (P.mulVec x) := by
    have h1 := hPD.posSemidef.2 (P.mulVec x)
    rw [hstar, hx] at h1
    rwa [dotProduct_comm] at h1
  linarith

lemma posDef_step {S : Mat n} {rho : ℝ} (hρ : 0 < rho) (hPD : S.PosDef)
    (x : Vec n) : (rho • S + vecMulVec x x).PosDef := by
  have hST : Sᵀ = S := transpose_eq_of_isHermitian hPD.1
  have hsmul : (rho • S).PosDef := by
    refine ⟨isHermitian_of_transpose (by rw [transpose_smul, hST]), fun v hv => ?_⟩
    rw [smul_mulVec_assoc, dotProduct_smul, smul_eq_mul]
    exact mul_pos hρ (hPD.2 v hv)
  exact hsmul.add_posSemidef (posSemidef_vecMulVec x)

end Invariant

section ShermanMorrison

variable {n : ℕ}

/-- The rank-1 `P`-update of spec §4.1 step 4 inverts the rank-1 covariance
update: if `P` is the inverse of `S`, then `(1/ρ)·(P − γ·g·gᵀ)` is a left
inverse of `ρ·S + x·xᵀ`. -/
lemma shermanMorrison_P {rho : ℝ} {S P : Mat n} (x : Vec n)
    (hρ : rho ≠ 0) (hd : rho + dotProduct x (P.mulVec x) ≠ 0)
    (hPS : P * S = 1) (hSP : S * P = 1) (hST : Sᵀ = S) :
    (rho⁻¹ • (P - (rho + dotProduct x (P.mulVec x))⁻¹ •
        vecMulVec (P.mulVec x) (P.mulVec x))) * (rho • S + vecMulVec x x) = 1 := by
  have hSg : S.mulVec (P.mulVec x) = x := by
    rw [Matrix.mulVec_mulVec, hSP, Matrix.one_mulVec]
  have e2 : vecMulVec (P.mulVec x) (P.mulVec x) * S = vecMulVec (P.mulVec x) x := by
    rw [vecMulVec_mul, hST, hSg]
  have e3 : vecMulVec (P.mulVec x) (P.mulVec x) * vecMulVec x x
      = dotProduct (P.mulVec x) x • vecMulVec (P.mulVec x) x :=
    vecMulVec_mul_vecMulVec _ _ _ _
  have hgx : dotProduct (P.mulVec x) x = dotProduct x (P.mulVec x) :=
    dotProduct_comm _ _
  simp only [Matrix.smul_mul, Matrix.sub_mul, Matrix.mul_add, Matrix.mul_smul,
    hPS, mul_vecMulVec, e2, e3, hgx]
  match_scalars <;> (field_simp ; try ring)

/-- The operator update of spec §4.1 step 3 keeps `A` equal to the weighted
least-squares solution `C·P`: multiplying the updated accumulator
`ρ·C + y·xᵀ` by the updated `P` reproduces `A + γ·(y − A·x)·gᵀ`. -/
lemma shermanMorrison_A {rho : ℝ} {C P : Mat n} (x y : Vec n)
    (hρ : rho ≠ 0) (hd : rho + dotProduct x (P.mulVec x) ≠ 0)
    (hPT : Pᵀ = P) :
    (rho • C + vecMulVec y x) * (rho⁻¹ • (P - (rho + dotProduct x (P.mulVec x))⁻¹ •
        vecMulVec (P.mulVec x) (P.mulVec x)))
      = C * P + (rho + dotProduct x (P.mulVec x))⁻¹ •
          vecMulVec (y - (C * P).mulVec x) (P.mulVec x) := by
  have e4 : C * vecMulVec (P.mulVec x) (P.mulVec x)
      = vecMulVec ((C * P).mulVec x) (P.mulVec x) := by
    rw [mul_vecMulVec, Matrix.mulVec_mulVec]
  have e5 : vecMulVec y x * P = vecMulVec y (P.mulVec x) := by
    rw [vecMulVec_mul, hPT]
  have e6 : vecMulVec y x * vecMulVec (P.mulVec x) (P.mulVec x)
      = dotProduct x (P.mulVec x) • vecMulVec y (P.mulVec x) :=
    vecMulVec_mul_vecMulVec _ _ _ _
  simp only [Matrix.mul_smul, Matrix.smul_mul, Matrix.add_mul, Matrix.mul_sub,
    Matrix.sub_mul, sub_vecMulVec, e4, e5, e6]
  match_scalars <;> (field_simp ; try ring)

end ShermanMorrison

section Preservation

variable {n : ℕ}

/-- One `update` call preserves the run-time invariant, extending the input
history by the new pair. -/
lemma consistent_update {s : OnlineDMD n} {hist : List (Pair n)}
    (hρ : 0 < s.rho) (h : s.Consistent hist) (x y : Vec n) :
    (s.update x y).Consistent (hist ++ [(x, y)]) := by
  obtain ⟨hPD, hPS, hSP, hPT, hA⟩ := h
  have hρne : s.rho ≠ 0 := hρ.ne'
  have hST : (covS s.rho hist)ᵀ = covS s.rho hist := covS_transpose _ _
  have hdpos : 0 < s.rho + dotProduct x (s.P.mulVec x) := denom_pos hρ hPD hSP x
  have hdne : s.rho + dotProduct x (s.P.mulVec x) ≠ 0 := hdpos.ne'
  have hcov : covS (s.update x y).rho (hist ++ [(x, y)])
      = s.rho • covS s.rho hist + vecMulVec x x := covS_append _ _ _
  have hcross : crossC (s.update x y).rho (hist ++ [(x, y)])
      = s.rho • crossC s.rho hist + vecMulVec y x := crossC_append _ _ _
  have hP1 : (s.update x y).P * covS (s.update x y).rho (hist ++ [(x, y)]) = 1 := by
    rw [hcov]
    exact shermanMorrison_P x hρne hdne hPS hSP hST
  refine ⟨?_, hP1, ?_, ?_, ?_⟩
  · rw [hcov]
    exact posDef_step hρ hPD x
  · exact Matrix.mul_eq_one_comm.mp hP1
  · show (s.rho⁻¹ • (s.P - _ • vecMulVec (s.P.mulVec x) (s.P.mulVec x)))ᵀ = _
    rw [transpose_smul, transpose_sub, transpose_smul, transpose_vecMulVec, hPT]
    rfl
  · show s.A + _ • vecMulVec (y - s.A.mulVec x) (s.P.mulVec x)
        = crossC (s.update x y).rho (hist ++ [(x, y)]) * (s.update x y).P
    rw [hcross]
    show _ = (s.rho • crossC s.rho hist + vecMulVec y x) *
        (s.rho⁻¹ • (s.P - _ • vecMulVec (s.P.mulVec x) (s.P.mulVec x)))
    rw [shermanMorrison_A x y hρne hdne hPT, ← hA]

/-- Folding any list of pairs through `update` preserves the invariant. -/
lemma consistent_foldl {s : OnlineDMD n} {hist : List (Pair n)}
    (hρ : 0 < s.rho) (h : s.Consistent hist) (L : List (Pair n)) :
    (L.foldl stepPair s).Consistent (hist ++ L) := by
  induction L generalizing s hist with
  | nil => simpa using h
  | cons p L ih =>
      have h1 : (stepPair s p).Consistent (hist ++ [p]) := consistent_update hρ h p.1 p.2
      have hρ1 : 0 < (stepPair s p).rho := hρ
      have h2 := ih hρ1 h1
      simpa [List.append_assoc] using h2

/-- `update` does not change the weighting factor, and folding preserves it. -/
lemma foldl_rho (s : OnlineDMD n) (L : List (Pair n)) :
    (L.foldl stepPair s).rho = s.rho := by
  induction L generalizing s with
  | nil => rfl
  | cons p L ih => exact ih (stepPair s p)

end Preservation

section MoorePenrose

variable {n m : ℕ}

/-- For a full-row-rank snapshot matrix (`X·Xᵀ` invertible), the closed form
`Xᵀ·(X·Xᵀ)⁻¹` satisfies the four Moore–Penrose equations. -/
lemma isMoorePenrose_npPinv {X : Matrix (Fin n) (Fin m) ℝ}
    (h : IsUnit (X * Xᵀ).det) : IsMoorePenrose X (npPinv X) := by
  have hXG : X * npPinv X = 1 := by
    rw [npPinv, ← Matrix.mul_assoc, Matrix.mul_nonsing_inv _ h]
  have hW : ((X * Xᵀ)⁻¹)ᵀ = (X * Xᵀ)⁻¹ := by
    rw [Matrix.transpose_nonsing_inv, Matrix.transpose_mul, Matrix.transpose_transpose]
  refine ⟨?_, ?_, ?_, ?_⟩
  · rw [hXG, Matrix.one_mul]
  · rw [Matrix.mul_assoc, hXG, Matrix.mul_one]
  · rw [hXG, Matrix.transpose_one]
  · rw [npPinv, Matrix.mul_assoc, Matrix.transpose_mul, Matrix.transpose_mul, hW,
      Matrix.transpose_transpose, Matrix.mul_assoc]

/-- The Moore–Penrose equations determine the pseudoinverse uniquely. -/
lemma isMoorePenrose_unique {X : Matrix (Fin n) (Fin m) ℝ}
    {G H : Matrix (Fin m) (Fin n) ℝ}
    (hG : IsMoorePenrose X G) (hH : IsMoorePenrose X H) : G = H := by
  obtain ⟨hG1, hG2, hG3, hG4⟩ := hG
  obtain ⟨hH1, hH2, hH3, hH4⟩ := hH
  have hXG : X * G = X * H := by
    calc X * G = (X * G)ᵀ := hG3.symm
    _ = Gᵀ * Xᵀ := Matrix.transpose_mul _ _
    _ = Gᵀ * (X * H * X)ᵀ := by rw [hH1]
    _ = Gᵀ * (Xᵀ * (X * H)ᵀ) := by rw [Matrix.transpose_mul (X * H) X]
    _ = Gᵀ * (Xᵀ * (X * H)) := by rw [hH3]
    _ = Gᵀ * Xᵀ * (X * H) := by rw [Matrix.mul_assoc]
    _ = (X * G)ᵀ * (X * H) := by rw [Matrix.transpose_mul]
    _ = X * G * (X * H) := by rw [hG3]
    _ = X * G * X * H := by rw [← Matrix.mul_assoc]
    _ = X * H := by rw [hG1]
  have hGX : G * X = H * X := by
    calc G * X = (G * X)ᵀ := hG4.symm
    _ = Xᵀ * Gᵀ := Matrix.transpose_mul _ _
    _ = (X * (H * X))ᵀ * Gᵀ := by rw [← Matrix.mul_assoc, hH1]
    _ = (H * X)ᵀ * Xᵀ * Gᵀ := by rw [Matrix.transpose_mul X (H * X)]
    _ = H * X * Xᵀ * Gᵀ := by rw [hH4]
    _ = H * X * (Xᵀ * Gᵀ) := by rw [Matrix.mul_assoc]
    _ = H * X * (G * X)ᵀ := by rw [Matrix.transpose_mul]
    _ = H * X * (G * X) := by rw [hG4]
    _ = H * (X * G * X) := by rw [Matrix.mul_assoc, Matrix.mul_assoc]
    _ = H * X := by rw [hG1]
  calc G = G * X * G := hG2.symm
  _ = H * X * G := by rw [hGX]
  _ = H * (X * G) := Matrix.mul_assoc _ _ _
  _ = H * (X * H) := by rw [hXG]
  _ = H * X * H := by rw [Matrix.mul_assoc]
  _ = H := hH2

end MoorePenrose

section Bridging

variable {n : ℕ}

lemma histPairs_succ (x y : ℕ → Vec n) (m : ℕ) :
    histPairs x y (m + 1) = histPairs x y m ++ [(x m, y m)] := by
  simp [histPairs, List.range_succ]

lemma histPairs_length (x y : ℕ → Vec n) (m : ℕ) :
    (histPairs x y m).length = m := by
  simp [histPairs]

/-- The unweighted covariance over the first `m` pairs is exactly the demo's
`x[:, :m] · x[:, :m]ᵀ`. -/
lemma covS_histPairs (x y : ℕ → Vec n) (m : ℕ) :
    covS 1 (histPairs x y m) = colsMat x m * (colsMat x m)ᵀ := by
  induction m with
  | zero =>
      ext i j
      simp [histPairs, covS, colsMat, Matrix.mul_apply]
  | succ m ih =>
      rw [histPairs_succ, covS_append, one_smul, ih]
      ext i j
      simp [Matrix.mul_apply, colsMat, Matrix.vecMulVec_apply,
        Fin.sum_univ_castSucc]

/-- The unweighted cross-covariance over the first `m` pairs is exactly the
demo's `y[:, :m] · x[:, :m]ᵀ`. -/
lemma crossC_histPairs (x y : ℕ → Vec n) (m : ℕ) :
    crossC 1 (histPairs x y m) = colsMat y m * (colsMat x m)ᵀ := by
  induction m with
  | zero =>
      ext i j
      simp [histPairs, crossC, colsMat, Matrix.mul_apply]
  | succ m ih =>
      rw [histPairs_succ, crossC_append, one_smul, ih]
      ext i j
      simp [Matrix.mul_apply, colsMat, Matrix.vecMulVec_apply,
        Fin.sum_univ_castSucc]

/-- Unfolding the demo loop: after `j` iterations the estimator is exactly the
fold of `update` over the pairs with indices `q, …, q+j−1` on top of the
warm-up initialisation. -/
lemma demoLoop_eq_runStream (x y : ℕ → Vec n) (rho : ℝ) (q j : ℕ) :
    demoLoop x y rho q j = runStream x y rho q (q + j) := by
  induction j with
  | zero => simp [demoLoop, runStream]
  | succ j ih =>
      rw [demoLoop, ih, runStream, runStream, Nat.add_sub_cancel_left,
        Nat.add_sub_cancel_left, List.range_succ, List.map_append,
        List.foldl_append]
      rfl

/-- Splitting the first `m` pairs at `q ≤ m`: warm-up history followed by the
updated tail. -/
lemma histPairs_split (x y : ℕ → Vec n) {q m : ℕ} (hqm : q ≤ m) :
    histPairs x y q ++ ((List.range (m - q)).map fun j => (x (q + j), y (q + j)))
      = histPairs x y m := by
  conv_rhs => rw [histPairs, ← Nat.add_sub_cancel' hqm, List.range_add]
  rw [List.map_append, List.map_map]
  rfl

/-- The estimator state after processing the first `m` pairs satisfies the
run-time invariant, provided the warm-up covariance is positive definite. -/
lemma runStream_consistent (x y : ℕ → Vec n) {rho : ℝ} {q m : ℕ}
    (hρ : 0 < rho) (hqm : q ≤ m)
    (hPD : (covS rho (histPairs x y q)).PosDef) :
    (runStream x y rho q m).Consistent (histPairs x y m) := by
  have h0 : (OnlineDMD.initialise rho (histPairs x y q)).Consistent (histPairs x y q) :=
    consistent_initialise _ _ hPD
  have h1 := consistent_foldl (s := OnlineDMD.initialise rho (histPairs x y q)) hρ h0
    ((List.range (m - q)).map fun j => (x (q + j), y (q + j)))
  rw [histPairs_split x y hqm] at h1
  exact h1

lemma consistent_A_eq {s : OnlineDMD n} {hist : List (Pair n)}
    (h : s.Consistent hist) :
    s.A = crossC s.rho hist * (covS s.rho hist)⁻¹ := by
  obtain ⟨hPD, hPS, hSP, hPT, hA⟩ := h
  rw [Matrix.inv_eq_left_inv hPS]
  exact hA

lemma consistent_P_eq {s : OnlineDMD n} {hist : List (Pair n)}
    (h : s.Consistent hist) : s.P = (covS s.rho hist)⁻¹ :=
  (Matrix.inv_eq_left_inv h.2.1).symm

end Bridging

section WitnessSupport

lemma covS_xu_one : covS 1 (histPairs xu yu 1) = 1 := by
  ext i j
  simp [covS, histPairs, List.range_succ, xu, Matrix.vecMulVec_apply,
    Matrix.one_apply, Subsingleton.elim i j]

lemma covS_xu_posDef : (covS 1 (histPairs xu yu 1)).PosDef := by
  rw [covS_xu_one]
  exact Matrix.PosDef.one

lemma isUnit_det_colsMat_xu_one : IsUnit (colsMat xu 1 * (colsMat xu 1)ᵀ).det := by
  rw [← covS_histPairs xu yu 1, covS_xu_one, Matrix.det_one]
  exact isUnit_one

lemma isUnit_det_colsMat_xu_two : IsUnit (colsMat xu 2 * (colsMat xu 2)ᵀ).det := by
  have h2 : (colsMat xu 2 * (colsMat xu 2)ᵀ).det = 2 := by
    rw [Matrix.det_fin_one]
    simp [colsMat, xu, Matrix.mul_apply, Fin.sum_univ_two]
  rw [h2]
  exact isUnit_iff_ne_zero.mpr (by norm_num)

lemma one_mem_eigvalsC_one : (1 : ℂ) ∈ eigvalsC (1 : Mat 1) := by
  have hmap : (1 : Mat 1).map Complex.ofReal = (1 : Matrix (Fin 1) (Fin 1) ℂ) :=
    Matrix.map_one _ Complex.ofReal_zero Complex.ofReal_one
  have halg : (algebraMap ℂ (Matrix (Fin 1) (Fin 1) ℂ)) 1 = 1 :=
    (algebraMap ℂ (Matrix (Fin 1) (Fin 1) ℂ)).map_one
  rw [eigvalsC, hmap, spectrum.mem_iff, halg, sub_self]
  exact not_isUnit_zero

end WitnessSupport

section DataLocality

variable {n : ℕ}

lemma histPairs_congr {x y x2 y2 : ℕ → Vec n} {m : ℕ}
    (h : ∀ i, i < m → x2 i = x i ∧ y2 i = y i) :
    histPairs x2 y2 m = histPairs x y m := by
  unfold histPairs
  refine List.map_congr_left fun i hi => ?_
  have h2 := h i (List.mem_range.mp hi)
  rw [h2.1, h2.2]

lemma demoLoop_congr {x y x2 y2 : ℕ → Vec n} (rho : ℝ) (q : ℕ) (j : ℕ)
    (h : ∀ i, i < q + j → x2 i = x i ∧ y2 i = y i) :
    demoLoop x2 y2 rho q j = demoLoop x y rho q j := by
  induction j with
  | zero =>
      rw [demoLoop, demoLoop, histPairs_congr fun i hi => h i (by omega)]
  | succ j ih =>
      rw [demoLoop, demoLoop, ih fun i hi => h i (by omega),
        (h (q + j) (by omega)).1, (h (q + j) (by omega)).2]

lemma colsMat_congr {x x2 : ℕ → Vec n} {m : ℕ}
    (h : ∀ i, i < m → x2 i = x i) :
    colsMat x2 m = colsMat x m := by
  ext i j
  show x2 j.val i = x j.val i
  rw [h j.val j.isLt]

lemma truncStream_eq_of_le {x : ℕ → Vec n} {k i : ℕ} (h : i ≤ k) :
    truncStream x k i = x i := if_pos h

end DataLocality

/-- C2: for every estimator in the Ready state and every pair of `n`-vectors
`(x, y)`, `update(x, y)` performs exactly, in order: `g = P·x`;
`γ = 1/(ρ + xᵗ·g)`; `A` becomes `A + γ·(y − A·x)·gᵀ`; `P` becomes
`(1/ρ)·(P − γ·g·gᵀ)`; and `k` is incremented by one (the new `A` and `P` are
both computed from the pre-call `A` and `P`, and `ρ` is unchanged). -/
theorem onlineDMD_update_steps {n : ℕ} (s : OnlineDMD n) (x y : Vec n) :
    (s.update x y).A = s.A + (s.rho + dotProduct x (s.P.mulVec x))⁻¹ •
        vecMulVec (y - s.A.mulVec x) (s.P.mulVec x) ∧
    (s.update x y).P = s.rho⁻¹ • (s.P - (s.rho + dotProduct x (s.P.mulVec x))⁻¹ •
        vecMulVec (s.P.mulVec x) (s.P.mulVec x)) ∧
    (s.update x y).k = s.k + 1 ∧
    (s.update x y).rho = s.rho :=
  ⟨rfl, rfl, rfl, rfl⟩

/-- C5: calling `update` with `x` equal to the zero vector leaves `A`
unchanged, makes `γ = 1/ρ`, rescales `P` to exactly `(1/ρ)·P` (so its
eigen-structure is scaled by exactly `1/ρ`, not a no-op on `P` when
`ρ ≠ 1`), and still increments `k`. -/
theorem onlineDMD_update_zero_vector {n : ℕ} (s : OnlineDMD n) (y : Vec n) :
    (s.update 0 y).A = s.A ∧
    (s.update 0 y).P = s.rho⁻¹ • s.P ∧
    (s.rho + dotProduct (0 : Vec n) (s.P.mulVec 0))⁻¹ = s.rho⁻¹ ∧
    (s.update 0 y).k = s.k + 1 := by
  have hg : s.P.mulVec (0 : Vec n) = 0 := Matrix.mulVec_zero s.P
  have hγ : (s.rho + dotProduct (0 : Vec n) (s.P.mulVec 0))⁻¹ = s.rho⁻¹ := by
    rw [zero_dotProduct, add_zero]
  have hv0 : ∀ v : Vec n, vecMulVec v (0 : Vec n) = (0 : Mat n) := by
    intro v; ext i j; simp [Matrix.vecMulVec_apply]
  refine ⟨?_, ?_, hγ, rfl⟩
  · show s.A + _ • vecMulVec (y - s.A.mulVec 0) (s.P.mulVec 0) = s.A
    rw [hg, hv0, smul_zero, add_zero]
  · show s.rho⁻¹ • (s.P - _ • vecMulVec (s.P.mulVec 0) (s.P.mulVec 0)) = s.rho⁻¹ • s.P
    rw [hg, hv0, smul_zero, sub_zero]

/-- C7: the step counter equals `q0` immediately after `initialize` on a
batch of `q0` pairs, increases by exactly one on every `update`, and over any
further sequence of updates it only grows (by exactly the number of updates);
no operation other than a fresh `initialize` resets it. -/
theorem onlineDMD_step_counter {n : ℕ} (rho : ℝ) (ps : List (Pair n))
    (s : OnlineDMD n) (x y : Vec n) (L : List (Pair n)) :
    (OnlineDMD.initialise rho ps : OnlineDMD n).k = ps.length ∧
    (s.update x y).k = s.k + 1 ∧
    (L.foldl stepPair s).k = s.k + L.length ∧
    s.k ≤ (L.foldl stepPair s).k := by
  have hfold : ∀ (L : List (Pair n)) (s : OnlineDMD n),
      (L.foldl stepPair s).k = s.k + L.length := by
    intro L
    induction L with
    | nil => intro s; simp
    | cons p L ih =>
        intro s
        rw [List.foldl_cons, ih (stepPair s p)]
        show s.k + 1 + L.length = s.k + (p :: L).length
        rw [List.length_cons]
        omega
  refine ⟨rfl, rfl, hfold L s, ?_⟩
  rw [hfold L s]
  exact Nat.le_add_right _ _

/-- C6: the auxiliary matrix `P` of any reachable state (warm-up `initialize`
followed by any number of `update` calls) is symmetric, and whenever the
warm-up covariance is positive definite (well-posed initial batch), `P`
remains positive definite. -/
theorem onlineDMD_P_symm_posDef {n : ℕ} (x y : ℕ → Vec n) {rho : ℝ} {q m : ℕ}
    (hρ : 0 < rho) (hqm : q ≤ m)
    (hPD : (covS rho (histPairs x y q)).PosDef) :
    ((runStream x y rho q m).P)ᵀ = (runStream x y rho q m).P ∧
    (runStream x y rho q m).P.PosDef := by
  have h := runStream_consistent x y hρ hqm hPD
  refine ⟨h.2.2.2.1, ?_⟩
  rw [consistent_P_eq h]
  exact Matrix.PosDef.inv h.1

/-- C6 witness: a concrete well-posed run in dimension 1. -/
theorem onlineDMD_P_symm_posDef_witness :
    (0 : ℝ) < 1 ∧ 1 ≤ 1 ∧ (covS 1 (histPairs xu yu 1)).PosDef ∧
    (((runStream xu yu 1 1 1).P)ᵀ = (runStream xu yu 1 1 1).P ∧
      (runStream xu yu 1 1 1).P.PosDef) :=
  ⟨one_pos, le_refl 1, covS_xu_posDef,
    onlineDMD_P_symm_posDef xu yu one_pos (le_refl 1) covS_xu_posDef⟩

/-- C8: for `ρ = 1`, feeding the first `m` pairs all at once via a single
`initialize` yields the same operator `A` as `initialize` on the first `q`
pairs followed by one `update` per remaining pair, provided the warm-up
covariance is positive definite. -/
theorem onlineDMD_order_batching {n : ℕ} (x y : ℕ → Vec n) {q m : ℕ}
    (hqm : q ≤ m) (hPD : (covS 1 (histPairs x y q)).PosDef) :
    (runStream x y 1 q m).A = (OnlineDMD.initialise 1 (histPairs x y m)).A := by
  have h := runStream_consistent x y one_pos hqm hPD
  have hr : (runStream x y 1 q m).rho = 1 := foldl_rho _ _
  have hA := consistent_A_eq h
  rw [hr] at hA
  rw [hA]
  rfl

/-- C8 witness: a concrete well-posed run in dimension 1. -/
theorem onlineDMD_order_batching_witness :
    1 ≤ 1 ∧ (covS 1 (histPairs xu yu 1)).PosDef ∧
    (runStream xu yu 1 1 1).A = (OnlineDMD.initialise 1 (histPairs xu yu 1)).A :=
  ⟨le_refl 1, covS_xu_posDef,
    onlineDMD_order_batching xu yu (le_refl 1) covS_xu_posDef⟩

/-- C1: with weighting `ρ = 1` and a well-posed warm-up batch of the first
`q` pairs, at every step `k ≥ q` of the demo loop the online estimator's
current operator equals the batch oracle `AbatchDMD` computed from scratch
over the identical pairs `0, …, k`, and equals `y[:, :k+1]·G` for the (unique)
Moore–Penrose pseudoinverse `G` of `x[:, :k+1]` — exactly, hence within any
relative tolerance (the spec's `1e-8` included). -/
theorem onlineDMD_matches_batchDMD {n : ℕ} (x y : ℕ → Vec n) {q k : ℕ}
    (G : Matrix (Fin (k + 1)) (Fin n) ℝ)
    (hqk : q ≤ k) (hPD : (covS 1 (histPairs x y q)).PosDef)
    (hG : IsMoorePenrose (colsMat x (k + 1)) G) :
    (demoLoop x y 1 q (k + 1 - q)).current_operator = AbatchDMD x y k ∧
    (demoLoop x y 1 q (k + 1 - q)).current_operator = colsMat y (k + 1) * G := by
  have hq1 : q ≤ k + 1 := hqk.trans (Nat.le_succ k)
  have hloop : demoLoop x y 1 q (k + 1 - q) = runStream x y 1 q (k + 1) := by
    rw [demoLoop_eq_runStream, Nat.add_sub_cancel' hq1]
  have h := runStream_consistent x y one_pos hq1 hPD
  have hr : (runStream x y 1 q (k + 1)).rho = 1 := foldl_rho _ _
  have hA := consistent_A_eq h
  rw [hr] at hA
  have hPDfull : (covS 1 (histPairs x y (k + 1))).PosDef := by
    rw [← hr]; exact h.1
  have hcov := covS_histPairs x y (k + 1)
  have hcross := crossC_histPairs x y (k + 1)
  have hdet : IsUnit (colsMat x (k + 1) * (colsMat x (k + 1))ᵀ).det := by
    rw [← hcov]
    exact isUnit_iff_ne_zero.mpr hPDfull.det_pos.ne'
  have hbatch : AbatchDMD x y k
      = crossC 1 (histPairs x y (k + 1)) * (covS 1 (histPairs x y (k + 1)))⁻¹ := by
    rw [AbatchDMD, npPinv, hcov, hcross, ← Matrix.mul_assoc]
  have hGeq : G = npPinv (colsMat x (k + 1)) :=
    isMoorePenrose_unique hG (isMoorePenrose_npPinv hdet)
  constructor
  · rw [OnlineDMD.current_operator, hloop, hA, hbatch]
  · rw [OnlineDMD.current_operator, hloop, hA, hGeq, ← AbatchDMD, hbatch]

/-- C1 witness: constant streams in dimension 1 with `q = 1`, `k = 1`. -/
theorem onlineDMD_matches_batchDMD_witness :
    1 ≤ 1 ∧ (covS 1 (histPairs xu yu 1)).PosDef ∧
    IsMoorePenrose (colsMat xu 2) (npPinv (colsMat xu 2)) ∧
    ((demoLoop xu yu 1 1 1).current_operator = AbatchDMD xu yu 1 ∧
      (demoLoop xu yu 1 1 1).current_operator = colsMat yu 2 * npPinv (colsMat xu 2)) :=
  ⟨le_refl 1, covS_xu_posDef, isMoorePenrose_npPinv isUnit_det_colsMat_xu_two,
    onlineDMD_matches_batchDMD xu yu (npPinv (colsMat xu 2)) (le_refl 1)
      covS_xu_posDef (isMoorePenrose_npPinv isUnit_det_colsMat_xu_two)⟩

/-- C4: at every step `k`, whenever the history `x[:, :k+1]` has full row
rank, the batch oracle's operator equals `y[:, :k+1]·G` for the (unique)
Moore–Penrose pseudoinverse `G` of `x[:, :k+1]`, and it is the least-squares
solution recomputed from the full history of all `k+1` pairs seen so far
(`C·S⁻¹` over exactly the pairs `0, …, k`). -/
theorem AbatchDMD_full_history {n : ℕ} (x y : ℕ → Vec n) (k : ℕ)
    (G : Matrix (Fin (k + 1)) (Fin n) ℝ)
    (hdet : IsUnit (colsMat x (k + 1) * (colsMat x (k + 1))ᵀ).det)
    (hG : IsMoorePenrose (colsMat x (k + 1)) G) :
    AbatchDMD x y k = colsMat y (k + 1) * G ∧
    AbatchDMD x y k
      = crossC 1 (histPairs x y (k + 1)) * (covS 1 (histPairs x y (k + 1)))⁻¹ := by
  have hGeq : G = npPinv (colsMat x (k + 1)) :=
    isMoorePenrose_unique hG (isMoorePenrose_npPinv hdet)
  constructor
  · rw [hGeq]; rfl
  · rw [AbatchDMD, npPinv, covS_histPairs, crossC_histPairs, ← Matrix.mul_assoc]

/-- C4 witness: constant stream in dimension 1 at step `k = 0`. -/
theorem AbatchDMD_full_history_witness :
    IsUnit (colsMat xu 1 * (colsMat xu 1)ᵀ).det ∧
    IsMoorePenrose (colsMat xu 1) (npPinv (colsMat xu 1)) ∧
    (AbatchDMD xu yu 0 = colsMat yu 1 * npPinv (colsMat xu 1) ∧
      AbatchDMD xu yu 0
        = crossC 1 (histPairs xu yu 1) * (covS 1 (histPairs xu yu 1))⁻¹) :=
  ⟨isUnit_det_colsMat_xu_one, isMoorePenrose_npPinv isUnit_det_colsMat_xu_one,
    AbatchDMD_full_history xu yu 0 (npPinv (colsMat xu 1))
      isUnit_det_colsMat_xu_one (isMoorePenrose_npPinv isUnit_det_colsMat_xu_one)⟩

/-- C10: after the demo-loop iteration for index `k` (with `q ≤ k`), the
online estimator state is exactly the fold of `update` over the pairs
`q, …, k` on top of `initialize` on the pairs `0, …, q−1` — i.e. it has been
fed each of the pairs `0, …, k` exactly once, in arrival order — and both the
loop state and the batch oracle at step `k` are unchanged when the streams
are truncated after index `k`: the two estimators are compared over the
identical data `x[:, :k+1]`, `y[:, :k+1]` at every step. -/
theorem demoLoop_exact_prefix {n : ℕ} (x y : ℕ → Vec n) (rho : ℝ) {q k : ℕ}
    (hqk : q ≤ k) :
    demoLoop x y rho q (k + 1 - q) = runStream x y rho q (k + 1) ∧
    demoLoop (truncStream x k) (truncStream y k) rho q (k + 1 - q)
      = demoLoop x y rho q (k + 1 - q) ∧
    AbatchDMD (truncStream x k) (truncStream y k) k = AbatchDMD x y k := by
  have hq1 : q ≤ k + 1 := hqk.trans (Nat.le_succ k)
  have hsum : q + (k + 1 - q) = k + 1 := Nat.add_sub_cancel' hq1
  refine ⟨?_, ?_, ?_⟩
  · rw [demoLoop_eq_runStream, hsum]
  · refine demoLoop_congr rho q (k + 1 - q) fun i hi => ?_
    have hik : i ≤ k := by omega
    exact ⟨truncStream_eq_of_le hik, truncStream_eq_of_le hik⟩
  · have hx : colsMat (truncStream x k) (k + 1) = colsMat x (k + 1) :=
      colsMat_congr fun i hi => truncStream_eq_of_le (by omega)
    have hy : colsMat (truncStream y k) (k + 1) = colsMat y (k + 1) :=
      colsMat_congr fun i hi => truncStream_eq_of_le (by omega)
    rw [AbatchDMD, AbatchDMD, hx, hy]

/-- C10 witness: the concrete instance `q = 1`, `k = 1` in dimension 1. -/
theorem demoLoop_exact_prefix_witness :
    1 ≤ 1 ∧
    (demoLoop xu yu 1 1 1 = runStream xu yu 1 1 2 ∧
      demoLoop (truncStream xu 1) (truncStream yu 1) 1 1 1 = demoLoop xu yu 1 1 1 ∧
      AbatchDMD (truncStream xu 1) (truncStream yu 1) 1 = AbatchDMD xu yu 1) :=
  ⟨le_refl 1, demoLoop_exact_prefix xu yu 1 (le_refl 1)⟩

/-- C3: for any operator `A` and sampling interval `dt > 0`, the demo's
eigen-extraction maps each discrete eigenvalue `l` of `A` to the
continuous-time eigenvalue `log(l)/dt`; the logarithm used is the principal
branch: multiplying back by `dt` gives a complex number whose exponential
recovers `l` (for `l ≠ 0`) and whose imaginary part lies in `(−π, π]`. -/
theorem evalsCT_principal_log {n : ℕ} {A : Mat n} {dt : ℝ} {l : ℂ}
    (hdt : 0 < dt) (hl : l ∈ eigvalsC A) (hl0 : l ≠ 0) :
    Complex.log l / (dt : ℂ) ∈ evalsCT A dt ∧
    Complex.exp ((dt : ℂ) * (Complex.log l / (dt : ℂ))) = l ∧
    ((dt : ℂ) * (Complex.log l / (dt : ℂ))).im ∈ Set.Ioc (-Real.pi) Real.pi := by
  have hdtne : (dt : ℂ) ≠ 0 := by
    simpa using hdt.ne'
  have hmul : (dt : ℂ) * (Complex.log l / (dt : ℂ)) = Complex.log l := by
    field_simp
  refine ⟨⟨l, hl, rfl⟩, ?_, ?_⟩
  · rw [hmul]
    exact Complex.exp_log hl0
  · rw [hmul]
    exact ⟨Complex.neg_pi_lt_log_im l, Complex.log_im_le_pi l⟩

/-- C3 witness: the identity operator in dimension 1, `dt = 1`, eigenvalue 1. -/
theorem evalsCT_principal_log_witness :
    (0 : ℝ) < 1 ∧ (1 : ℂ) ∈ eigvalsC (1 : Mat 1) ∧ (1 : ℂ) ≠ 0 ∧
    (Complex.log 1 / ((1 : ℝ) : ℂ) ∈ evalsCT (1 : Mat 1) 1 ∧
      Complex.exp (((1 : ℝ) : ℂ) * (Complex.log 1 / ((1 : ℝ) : ℂ))) = 1 ∧
      (((1 : ℝ) : ℂ) * (Complex.log 1 / ((1 : ℝ) : ℂ))).im
        ∈ Set.Ioc (-Real.pi) Real.pi) :=
  ⟨one_pos, one_mem_eigvalsC_one, one_ne_zero,
    evalsCT_principal_log one_pos one_mem_eigvalsC_one one_ne_zero⟩

/-- C9: because the extraction uses the principal branch of the complex
logarithm, for every operator `A` and every `dt > 0`, each extracted
continuous-time eigenvalue has imaginary part in `(−π/dt, π/dt]`; with the
demo's `dt = 0.1` this interval is `(−10π, 10π]`. -/
theorem evalsCT_im_bounds {n : ℕ} {A : Mat n} {dt : ℝ} {mu : ℂ}
    (hdt : 0 < dt) (hmu : mu ∈ evalsCT A dt) :
    -Real.pi / dt < mu.im ∧ mu.im ≤ Real.pi / dt := by
  rw [evalsCT, Set.mem_image] at hmu
  obtain ⟨l, hl, rfl⟩ := hmu
  rw [Complex.div_ofReal_im]
  constructor
  · rw [div_lt_div_iff_of_pos_right hdt]
    exact Complex.neg_pi_lt_log_im l
  · rw [div_le_div_iff_of_pos_right hdt]
    exact Complex.log_im_le_pi l

/-- C9 witness: the identity operator in dimension 1 with the demo's
`dt = 0.1 = 1/10`, so the bound instantiates to `(−10π, 10π]`. -/
theorem evalsCT_im_bounds_witness :
    (0 : ℝ) < 1 / 10 ∧
    Complex.log 1 / (((1 : ℝ) / 10 : ℝ) : ℂ) ∈ evalsCT (1 : Mat 1) (1 / 10) ∧
    (-Real.pi / (1 / 10) < (Complex.log 1 / (((1 : ℝ) / 10 : ℝ) : ℂ)).im ∧
      (Complex.log 1 / (((1 : ℝ) / 10 : ℝ) : ℂ)).im ≤ Real.pi / (1 / 10)) :=
  ⟨by norm_num, ⟨1, one_mem_eigvalsC_one, rfl⟩,
    evalsCT_im_bounds (by norm_num) ⟨1, one_mem_eigvalsC_one, rfl⟩⟩
